import Mathlib

/-!
Verification of the Black-Scholes option pricing application.

The application consists of two source files:
* black_scholes.py: a class BlackScholes with fields S, K, T, sigma, r and a
  method calculate_prices computing the closed-form call and put prices with
  the standard normal CDF (scipy.stats.norm.cdf).
* app.py: a Monte Carlo estimator monte_carlo_option_price (which reseeds the
  process-wide numpy random generator with the fixed seed 42 on every call),
  and a 10 x 10 price-surface grid built from np.linspace ranges by looping
  volatility (rows) over spot (columns).

The floating-point arithmetic of the source is embedded into the real numbers.
The standard normal CDF is defined here as the integral of the Gaussian
density over Iic, which is the mathematical function scipy.stats.norm.cdf
approximates.  Real-number division by zero is Lean's x / 0 = 0 convention;
where the source would produce NaN (T = 0, or a mean over zero samples) the
embedding produces the corresponding total value, and the relevant theorems
note this.

The numpy global random generator is modelled by an abstract state (a natural
number), a stream function giving the standard-normal draws obtained from a
given state, and a state-transition function; np.random.seed(42) replaces the
incoming state by the state determined by the seed value 42.  All theorems
about the estimator's returned value are parametric in the stream, so they
hold for every deterministic generator semantics, which numpy's generator is.
-/

open MeasureTheory Set

/-- Density of the standard normal distribution, the derivative of the CDF
used by scipy.stats.norm.cdf. -/
noncomputable def norm_pdf (x : ℝ) : ℝ :=
  Real.exp (-(x ^ 2) / 2) / Real.sqrt (2 * Real.pi)

/-- Standard normal cumulative distribution function: the mathematical
function computed by scipy.stats.norm.cdf. -/
noncomputable def norm_cdf (x : ℝ) : ℝ := ∫ t in Iic x, norm_pdf t

/-- The parameters held by the BlackScholes class of black_scholes.py. -/
structure BlackScholes where
  S : ℝ
  K : ℝ
  T : ℝ
  sigma : ℝ
  r : ℝ

/-- Translation of BlackScholes.calculate_prices from black_scholes.py. -/
noncomputable def BlackScholes.calculate_prices (b : BlackScholes) : ℝ × ℝ :=
  let d1 := (Real.log (b.S / b.K) + (b.r + 0.5 * b.sigma ^ 2) * b.T) /
      (b.sigma * Real.sqrt b.T)
  let d2 := d1 - b.sigma * Real.sqrt b.T
  let call_price := b.S * norm_cdf d1 - b.K * Real.exp (-b.r * b.T) * norm_cdf d2
  let put_price := b.K * Real.exp (-b.r * b.T) * norm_cdf (-d2) - b.S * norm_cdf (-d1)
  (call_price, put_price)

/-- The d1 term of calculate_prices as a standalone function. -/
noncomputable def bs_d1 (S K T sigma r : ℝ) : ℝ :=
  (Real.log (S / K) + (r + 0.5 * sigma ^ 2) * T) / (sigma * Real.sqrt T)

/-- The d2 term of calculate_prices as a standalone function. -/
noncomputable def bs_d2 (S K T sigma r : ℝ) : ℝ :=
  bs_d1 S K T sigma r - sigma * Real.sqrt T

/-- The call component of calculate_prices as a standalone function. -/
noncomputable def bs_call (S K T sigma r : ℝ) : ℝ :=
  S * norm_cdf (bs_d1 S K T sigma r) -
    K * Real.exp (-r * T) * norm_cdf (bs_d2 S K T sigma r)

/-- The put component of calculate_prices as a standalone function. -/
noncomputable def bs_put (S K T sigma r : ℝ) : ℝ :=
  K * Real.exp (-r * T) * norm_cdf (-bs_d2 S K T sigma r) -
    S * norm_cdf (-bs_d1 S K T sigma r)

lemma calculate_prices_def (b : BlackScholes) :
    b.calculate_prices = (bs_call b.S b.K b.T b.sigma b.r, bs_put b.S b.K b.T b.sigma b.r) :=
  rfl

lemma norm_pdf_pos (x : ℝ) : 0 < norm_pdf x :=
  div_pos (Real.exp_pos _) (Real.sqrt_pos.mpr (by positivity))

lemma norm_pdf_nonneg (x : ℝ) : 0 ≤ norm_pdf x := (norm_pdf_pos x).le

lemma continuous_norm_pdf : Continuous norm_pdf :=
  (Real.continuous_exp.comp ((continuous_pow 2).neg.div_const 2)).div_const _

lemma norm_pdf_eq (x : ℝ) :
    Real.exp (-(1 / 2 : ℝ) * x ^ 2) / Real.sqrt (2 * Real.pi) = norm_pdf x := by
  unfold norm_pdf
  rw [show (-(1 / 2 : ℝ)) * x ^ 2 = -(x ^ 2) / 2 by ring]

lemma integrable_norm_pdf : Integrable norm_pdf := by
  have h := (integrable_exp_neg_mul_sq (show (0 : ℝ) < 1 / 2 by norm_num)).div_const
    (Real.sqrt (2 * Real.pi))
  exact h.congr (Filter.Eventually.of_forall norm_pdf_eq)

lemma integral_norm_pdf : ∫ x : ℝ, norm_pdf x = 1 := by
  have h : ∫ x : ℝ, Real.exp (-(1 / 2 : ℝ) * x ^ 2) = Real.sqrt (Real.pi / (1 / 2)) :=
    integral_gaussian (1 / 2)
  have h2 : ∫ x : ℝ, norm_pdf x =
      (∫ x : ℝ, Real.exp (-(1 / 2 : ℝ) * x ^ 2)) / Real.sqrt (2 * Real.pi) := by
    rw [← integral_div]
    exact integral_congr_ae (Filter.Eventually.of_forall fun x => (norm_pdf_eq x).symm)
  rw [h2, h, show Real.pi / (1 / 2) = 2 * Real.pi by ring]
  exact div_self (ne_of_gt (Real.sqrt_pos.mpr (by positivity)))

lemma norm_cdf_nonneg (x : ℝ) : 0 ≤ norm_cdf x :=
  setIntegral_nonneg measurableSet_Iic fun t _ => norm_pdf_nonneg t

lemma norm_pdf_neg (x : ℝ) : norm_pdf (-x) = norm_pdf x := by
  unfold norm_pdf
  rw [neg_sq]

lemma norm_cdf_add_neg (x : ℝ) : norm_cdf x + norm_cdf (-x) = 1 := by
  have h1 : norm_cdf (-x) = ∫ t in Ioi x, norm_pdf t := by
    have h2 : ∫ t in Iic (-x), norm_pdf (-t) = ∫ t in Ioi x, norm_pdf t := by
      have := integral_comp_neg_Iic (-x) norm_pdf
      rwa [neg_neg] at this
    unfold norm_cdf
    rw [← h2]
    exact setIntegral_congr_fun measurableSet_Iic fun t _ => (norm_pdf_neg t).symm
  have h3 := intervalIntegral.integral_Iic_add_Ioi (b := x)
    integrable_norm_pdf.integrableOn integrable_norm_pdf.integrableOn
  rw [h1]
  unfold norm_cdf
  rw [h3, integral_norm_pdf]

lemma norm_cdf_le_one (x : ℝ) : norm_cdf x ≤ 1 := by
  have := norm_cdf_add_neg x
  have := norm_cdf_nonneg (-x)
  linarith

lemma norm_cdf_zero : norm_cdf 0 = 1 / 2 := by
  have := norm_cdf_add_neg 0
  rw [neg_zero] at this
  linarith

/-- C1: Put-call parity.  For every valid parameter set (S, K, T, sigma
positive, r arbitrary) the pair returned by calculate_prices satisfies
call - put = S - K * exp(-r * T) exactly over the reals. -/
theorem put_call_parity (S K T sigma r : ℝ)
    (hS : 0 < S) (hK : 0 < K) (hT : 0 < T) (hsigma : 0 < sigma) :
    (BlackScholes.calculate_prices ⟨S, K, T, sigma, r⟩).1 -
      (BlackScholes.calculate_prices ⟨S, K, T, sigma, r⟩).2 =
      S - K * Real.exp (-r * T) := by
  rw [calculate_prices_def]
  have h1 := norm_cdf_add_neg (bs_d1 S K T sigma r)
  have h2 := norm_cdf_add_neg (bs_d2 S K T sigma r)
  unfold bs_call bs_put
  linear_combination S * h1 - K * Real.exp (-r * T) * h2

/-- Witness for put_call_parity at S = 2, K = 1, T = 1, sigma = 1, r = 1. -/
theorem put_call_parity_witness :
    (0 : ℝ) < 2 ∧ (0 : ℝ) < 1 ∧
    (BlackScholes.calculate_prices ⟨2, 1, 1, 1, 1⟩).1 -
      (BlackScholes.calculate_prices ⟨2, 1, 1, 1, 1⟩).2 =
      2 - 1 * Real.exp (-1 * 1) :=
  ⟨two_pos, one_pos, put_call_parity 2 1 1 1 1 two_pos one_pos one_pos one_pos⟩

/-- C2 (amended): calculate_prices performs no domain validation.  With
T = 0 the computation proceeds through a division by zero and returns a
numeric pair instead of raising DomainError: in this real-valued embedding
(division by zero yielding 0, so d1 = d2 = 0) the result is
((S - K) / 2, (K - S) / 2); in the floating-point source it is NaN.  No
error path exists in the function. -/
theorem pricer_total_at_T_zero (S K sigma r : ℝ) :
    BlackScholes.calculate_prices ⟨S, K, 0, sigma, r⟩ = ((S - K) / 2, (K - S) / 2) := by
  simp only [BlackScholes.calculate_prices, Real.sqrt_zero, mul_zero, div_zero, sub_zero,
    neg_zero, add_zero, Real.exp_zero, norm_cdf_zero, mul_one, Prod.mk.injEq]
  constructor <;> ring

/-- C2 (counterexample): at the claim's own input
price(S=100, K=100, T=0, sigma=0.2, r=0.05) the code returns a numeric
pair — (0, 0) in the real embedding, NaN in floating point — and does not
fail with DomainError: calculate_prices has no validation or error path. -/
theorem pricer_domain_error_cex :
    BlackScholes.calculate_prices ⟨100, 100, 0, 0.2, 0.05⟩ = (0, 0) := by
  simp only [BlackScholes.calculate_prices, Real.sqrt_zero, mul_zero, div_zero, sub_zero,
    neg_zero, add_zero, Real.exp_zero, norm_cdf_zero, mul_one, Prod.mk.injEq]
  norm_num

/-- Model of the numpy global pseudo-random generator: an abstract state
(natural number), a deterministic stream of standard-normal draws obtained
from a state, and the state advance caused by drawing.  normals_length
records that np.random.standard_normal(n) returns exactly n draws. -/
structure NpRandom where
  normals : ℕ → ℕ → List ℝ
  next : ℕ → ℕ → ℕ
  normals_length : ∀ s n, (normals s n).length = n

/-- Translation of monte_carlo_option_price from app.py.  The argument g is
the process-wide numpy generator state when the function is entered; the
call np.random.seed(42) discards it and installs the state determined by
the constant seed 42.  The second component of the result is the generator
state left behind by the call. -/
noncomputable def monte_carlo_option_price (rng : NpRandom) (g : ℕ)
    (S K T sigma r : ℝ) (simulations : ℕ) (option_type : String) : ℝ × ℕ :=
  let seeded := 42
  let Z := rng.normals seeded simulations
  let ST := Z.map fun z =>
    S * Real.exp ((r - 0.5 * sigma ^ 2) * T + sigma * Real.sqrt T * z)
  let payoffs := if option_type = "call" then ST.map fun x => max (x - K) 0
    else ST.map fun x => max (K - x) 0
  (Real.exp (-r * T) * (payoffs.sum / payoffs.length), rng.next seeded simulations)

/-- Concrete instance of the generator model, used to evaluate the
estimator at specific inputs where the drawn values are irrelevant. -/
def npRngModel : NpRandom where
  normals := fun _ n => List.replicate n 0
  next := fun s n => s + n
  normals_length := fun _ n => by simp

/-- The payoff samples of the Monte Carlo estimator, as described by the
spec: ST_i = S * exp((r - 0.5*sigma^2)*T + sigma*sqrt(T)*Z_i), and payoff
max(ST_i - K, 0) for calls, max(K - ST_i, 0) otherwise. -/
noncomputable def mc_payoffs (rng : NpRandom) (S K T sigma r : ℝ) (n : ℕ)
    (option_type : String) : List ℝ :=
  let ST := (rng.normals 42 n).map fun z =>
    S * Real.exp ((r - 0.5 * sigma ^ 2) * T + sigma * Real.sqrt T * z)
  if option_type = "call" then ST.map fun x => max (x - K) 0
  else ST.map fun x => max (K - x) 0

/-- C4: the estimator returns exactly exp(-r*T) * mean(payoffs) where the
payoffs are max(ST_i - K, 0) for calls and max(K - ST_i, 0) otherwise,
with ST_i = S * exp((r - 0.5*sigma^2)*T + sigma*sqrt(T)*Z_i) over the n
draws; there are exactly n payoffs, each nonnegative, and the discount
factor multiplies the sample mean once. -/
theorem monte_carlo_formula (rng : NpRandom) (g : ℕ) (S K T sigma r : ℝ)
    (n : ℕ) (ot : String) :
    (monte_carlo_option_price rng g S K T sigma r n ot).1 =
      Real.exp (-r * T) * ((mc_payoffs rng S K T sigma r n ot).sum / n) ∧
    (mc_payoffs rng S K T sigma r n ot).length = n ∧
    ∀ p ∈ mc_payoffs rng S K T sigma r n ot, 0 ≤ p := by
  have hlen : (mc_payoffs rng S K T sigma r n ot).length = n := by
    unfold mc_payoffs
    by_cases h : ot = "call" <;> simp [h, rng.normals_length]
  refine ⟨?_, hlen, ?_⟩
  · have h1 : (monte_carlo_option_price rng g S K T sigma r n ot).1 =
        Real.exp (-r * T) * ((mc_payoffs rng S K T sigma r n ot).sum /
          ((mc_payoffs rng S K T sigma r n ot).length : ℝ)) := rfl
    rw [h1, hlen]
  · intro p hp
    unfold mc_payoffs at hp
    by_cases h : ot = "call" <;> simp only [h, if_true, if_false, List.mem_map,
      Bool.false_eq_true, reduceIte] at hp <;> obtain ⟨z, _, rfl⟩ := hp <;>
      exact le_max_right _ 0

/-- C5 (amended): the estimator performs no sample-count validation.  With
simulations = 0 the call still returns a numeric result instead of failing
with InvalidArgument: the mean of the empty payoff list — NaN in the
floating-point source, 0 in this real embedding where 0 / 0 = 0. -/
theorem mc_zero_samples_numeric (rng : NpRandom) (g : ℕ) (S K T sigma r : ℝ)
    (ot : String) :
    (monte_carlo_option_price rng g S K T sigma r 0 ot).1 = 0 := by
  have hZ : rng.normals 42 0 = [] := List.length_eq_zero.mp (rng.normals_length 42 0)
  by_cases h : ot = "call" <;> simp [monte_carlo_option_price, hZ, h]

/-- C5 (counterexample): with n = 0 samples the estimator returns the
numeric value 0 (NaN in floating point) and raises nothing; no
InvalidArgument failure exists in the code. -/
theorem mc_invalid_argument_cex :
    (monte_carlo_option_price npRngModel 0 100 100 1 0.2 0.05 0 "call").1 = 0 := by
  simp [monte_carlo_option_price, npRngModel]

/-- C8: the estimator is a deterministic function of its arguments.  Because
np.random.seed(42) overwrites the generator state on entry, the result is
bit-identical across any two invocations with the same parameters, option
kind and sample count, independently of the prior generator state, for
every deterministic generator semantics. -/
theorem mc_reproducible (rng : NpRandom) (g1 g2 : ℕ) (S K T sigma r : ℝ)
    (n : ℕ) (ot : String) :
    monte_carlo_option_price rng g1 S K T sigma r n ot =
      monte_carlo_option_price rng g2 S K T sigma r n ot := rfl

/-- C9 (amended): the estimator is not stateless — each invocation
overwrites the process-wide numpy generator state, leaving behind the state
reached from seed 42 after the draw, whatever the prior state g was. -/
theorem mc_overwrites_rng_state (rng : NpRandom) (g : ℕ) (S K T sigma r : ℝ)
    (n : ℕ) (ot : String) :
    (monte_carlo_option_price rng g S K T sigma r n ot).2 = rng.next 42 n := rfl

/-- C9 (counterexample): a concrete invocation of the estimator (the app's
default 10000 samples) changes the process-wide generator state: entered
with state 0, it leaves a different state behind, so calling the estimator
does write state outside the call's own result. -/
theorem mc_mutates_state_cex :
    (monte_carlo_option_price npRngModel 0 100 100 1 0.2 0.05 10000 "call").2 ≠ 0 := by
  have h : (monte_carlo_option_price npRngModel 0 100 100 1 0.2 0.05 10000 "call").2 =
      10042 := rfl
  rw [h]
  norm_num

/-- C10: the option kind is not validated: for every option_type other than
the exact string "call" the estimator computes the put estimate — the same
value an explicit "put" argument yields — and never raises an error. -/
theorem mc_unknown_kind_is_put (rng : NpRandom) (g : ℕ) (S K T sigma r : ℝ)
    (n : ℕ) (ot : String) (h : ot ≠ "call") :
    (monte_carlo_option_price rng g S K T sigma r n ot).1 =
      (monte_carlo_option_price rng g S K T sigma r n "put").1 := by
  simp only [monte_carlo_option_price, if_neg h,
    if_neg (show ¬("put" = "call") by decide)]

/-- Witness for mc_unknown_kind_is_put at the misspelling "Call". -/
theorem mc_unknown_kind_is_put_witness :
    ("Call" : String) ≠ "call" ∧
    (monte_carlo_option_price npRngModel 0 100 100 1 0.2 0.05 10 "Call").1 =
      (monte_carlo_option_price npRngModel 0 100 100 1 0.2 0.05 10 "put").1 :=
  ⟨by decide, mc_unknown_kind_is_put npRngModel 0 100 100 1 0.2 0.05 10 "Call" (by decide)⟩

/-- Translation of np.linspace(start, stop, num) as called in app.py:
num evenly spaced values from start to stop, both endpoints included. -/
noncomputable def np_linspace (start stop : ℝ) (num : ℕ) : List ℝ :=
  (List.range num).map fun i : ℕ => start + (stop - start) * (i : ℝ) / ((num : ℝ) - 1)

/-- Translation of the call-price grid loop of app.py: for each vol in
vol_range (rows) and each spot in spot_range (columns), the call price of a
fresh BlackScholes instance at (S=spot, K, T, sigma=vol, r). -/
noncomputable def call_prices (K T r : ℝ) (spot_range vol_range : List ℝ) :
    List (List ℝ) :=
  vol_range.map fun vol => spot_range.map fun spot =>
    (BlackScholes.calculate_prices ⟨spot, K, T, vol, r⟩).1

/-- Translation of the put-price grid loop of app.py. -/
noncomputable def put_prices (K T r : ℝ) (spot_range vol_range : List ℝ) :
    List (List ℝ) :=
  vol_range.map fun vol => spot_range.map fun spot =>
    (BlackScholes.calculate_prices ⟨spot, K, T, vol, r⟩).2

lemma getD_map_of_lt {α β : Type} (f : α → β) (l : List α) (i : ℕ)
    (hi : i < l.length) (d : β) (d' : α) :
    (l.map f).getD i d = f (l.getD i d') := by
  simp [List.getD_eq_getElem?_getD, List.getElem?_map, List.getElem?_eq_getElem hi]

lemma np_linspace_length (start stop : ℝ) (num : ℕ) :
    (np_linspace start stop num).length = num := by
  simp [np_linspace]

lemma np_linspace_getD (start stop : ℝ) (num : ℕ) (j : ℕ) (hj : j < num) :
    (np_linspace start stop num).getD j 0 =
      start + (stop - start) * j / ((num : ℝ) - 1) := by
  unfold np_linspace
  rw [List.getD_eq_getElem?_getD, List.getElem?_map, List.getElem?_range hj]
  rfl

lemma np_linspace_first (start stop : ℝ) (num : ℕ) (h : 0 < num) :
    (np_linspace start stop num).getD 0 0 = start := by
  rw [np_linspace_getD start stop num 0 h]
  norm_num

lemma np_linspace_last (start stop : ℝ) (num : ℕ) (h : 2 ≤ num) :
    (np_linspace start stop num).getD (num - 1) 0 = stop := by
  have h1 : num - 1 < num := by omega
  rw [np_linspace_getD start stop num (num - 1) h1, Nat.cast_sub (by omega),
    Nat.cast_one]
  have hc : ((num : ℝ) - 1) ≠ 0 := by
    have h2 : (2 : ℝ) ≤ (num : ℝ) := by exact_mod_cast h
    linarith
  rw [mul_div_assoc, div_self hc, mul_one]
  ring

lemma np_linspace_step (start stop : ℝ) (num : ℕ) (j : ℕ) (hj : j + 1 < num) :
    (np_linspace start stop num).getD (j + 1) 0 -
      (np_linspace start stop num).getD j 0 =
      (stop - start) / ((num : ℝ) - 1) := by
  rw [np_linspace_getD start stop num (j + 1) hj,
    np_linspace_getD start stop num j (by omega)]
  push_cast
  ring

/-- The grid contract claimed for the surface generator with shape (N, M):
the call and put matrices have M rows of N columns each; the spot and
volatility axes are evenly spaced with both endpoints included; and every
cell equals the analytic price at (S = spot_values j, sigma = vol_values i)
with the base K, T, r — rows indexed by volatility, columns by spot. -/
def grid_contract (K T r s_lo s_hi v_lo v_hi : ℝ) (N M : ℕ) : Prop :=
  ((call_prices K T r (np_linspace s_lo s_hi N) (np_linspace v_lo v_hi M)).length = M ∧
    ∀ row ∈ call_prices K T r (np_linspace s_lo s_hi N) (np_linspace v_lo v_hi M),
      row.length = N) ∧
  ((put_prices K T r (np_linspace s_lo s_hi N) (np_linspace v_lo v_hi M)).length = M ∧
    ∀ row ∈ put_prices K T r (np_linspace s_lo s_hi N) (np_linspace v_lo v_hi M),
      row.length = N) ∧
  ((np_linspace s_lo s_hi N).getD 0 0 = s_lo ∧
    (np_linspace s_lo s_hi N).getD (N - 1) 0 = s_hi ∧
    ∀ j, j + 1 < N →
      (np_linspace s_lo s_hi N).getD (j + 1) 0 - (np_linspace s_lo s_hi N).getD j 0 =
        (s_hi - s_lo) / ((N : ℝ) - 1)) ∧
  ((np_linspace v_lo v_hi M).getD 0 0 = v_lo ∧
    (np_linspace v_lo v_hi M).getD (M - 1) 0 = v_hi ∧
    ∀ i, i + 1 < M →
      (np_linspace v_lo v_hi M).getD (i + 1) 0 - (np_linspace v_lo v_hi M).getD i 0 =
        (v_hi - v_lo) / ((M : ℝ) - 1)) ∧
  (∀ i j, i < M → j < N →
    ((call_prices K T r (np_linspace s_lo s_hi N) (np_linspace v_lo v_hi M)).getD i
        []).getD j 0 =
      (BlackScholes.calculate_prices ⟨(np_linspace s_lo s_hi N).getD j 0, K, T,
        (np_linspace v_lo v_hi M).getD i 0, r⟩).1) ∧
  (∀ i j, i < M → j < N →
    ((put_prices K T r (np_linspace s_lo s_hi N) (np_linspace v_lo v_hi M)).getD i
        []).getD j 0 =
      (BlackScholes.calculate_prices ⟨(np_linspace s_lo s_hi N).getD j 0, K, T,
        (np_linspace v_lo v_hi M).getD i 0, r⟩).2)

/-- C3: every grid the surface generator produces with shape (N, M)
satisfies the grid contract: M x N matrices, evenly spaced inclusive axes,
and every cell exactly equal to the analytic pricer's value at the
corresponding (spot, volatility) pair. -/
theorem grid_matches_pricer (K T r s_lo s_hi v_lo v_hi : ℝ) (N M : ℕ)
    (hN : 2 ≤ N) (hM : 2 ≤ M) : grid_contract K T r s_lo s_hi v_lo v_hi N M := by
  refine ⟨⟨?_, ?_⟩, ⟨?_, ?_⟩, ⟨?_, ?_, ?_⟩, ⟨?_, ?_, ?_⟩, ?_, ?_⟩
  · simp [call_prices, np_linspace_length]
  · intro row hrow
    obtain ⟨vol, _, rfl⟩ := List.mem_map.mp hrow
    simp [np_linspace_length]
  · simp [put_prices, np_linspace_length]
  · intro row hrow
    obtain ⟨vol, _, rfl⟩ := List.mem_map.mp hrow
    simp [np_linspace_length]
  · exact np_linspace_first s_lo s_hi N (by omega)
  · exact np_linspace_last s_lo s_hi N hN
  · exact fun j hj => np_linspace_step s_lo s_hi N j hj
  · exact np_linspace_first v_lo v_hi M (by omega)
  · exact np_linspace_last v_lo v_hi M hM
  · exact fun i hi => np_linspace_step v_lo v_hi M i hi
  · intro i j hi hj
    unfold call_prices
    rw [getD_map_of_lt _ _ i (by rw [np_linspace_length]; exact hi) [] (0 : ℝ),
      getD_map_of_lt _ _ j (by rw [np_linspace_length]; exact hj) (0 : ℝ) (0 : ℝ)]
  · intro i j hi hj
    unfold put_prices
    rw [getD_map_of_lt _ _ i (by rw [np_linspace_length]; exact hi) [] (0 : ℝ),
      getD_map_of_lt _ _ j (by rw [np_linspace_length]; exact hj) (0 : ℝ) (0 : ℝ)]

/-- Witness for grid_matches_pricer at the app's 10 x 10 resolution with
base parameters K = 100, T = 1, r = 0.05 and ranges 80..120, 0.1..0.3. -/
theorem grid_matches_pricer_witness :
    2 ≤ 10 ∧ grid_contract 100 1 0.05 80 120 0.1 0.3 10 10 :=
  ⟨by decide, grid_matches_pricer 100 1 0.05 80 120 0.1 0.3 10 10 (by decide) (by decide)⟩

lemma norm_pdf_sub (u a : ℝ) :
    norm_pdf (u - a) = norm_pdf u * Real.exp (a * u - a ^ 2 / 2) := by
  unfold norm_pdf
  rw [div_mul_eq_mul_div, ← Real.exp_add,
    show -(u ^ 2) / 2 + (a * u - a ^ 2 / 2) = -((u - a) ^ 2) / 2 by ring]

lemma integral_Iic_comp_sub (f : ℝ → ℝ) (c a : ℝ) :
    ∫ u in Iic c, f (u - a) = ∫ u in Iic (c - a), f u := by
  have h1 : ∀ u : ℝ, (Iic c).indicator (fun v => f (v - a)) u =
      (Iic (c - a)).indicator f (u - a) := by
    intro u
    by_cases hu : u ≤ c
    · rw [indicator_of_mem (mem_Iic.mpr hu),
        indicator_of_mem (mem_Iic.mpr (by linarith))]
    · rw [indicator_of_not_mem (by simpa using hu),
        indicator_of_not_mem (by simp only [mem_Iic]; push_neg at hu ⊢; linarith)]
  rw [← integral_indicator measurableSet_Iic, ← integral_indicator measurableSet_Iic]
  calc ∫ u, (Iic c).indicator (fun v => f (v - a)) u
      = ∫ u, (Iic (c - a)).indicator f (u - a) := by simp only [h1]
    _ = ∫ u, (Iic (c - a)).indicator f u := by
        simp_rw [sub_eq_add_neg]
        exact integral_add_right_eq_self ((Iic (c - a)).indicator f) (-a)

lemma norm_cdf_sub (c a : ℝ) :
    norm_cdf (c - a) = ∫ u in Iic c, norm_pdf u * Real.exp (a * u - a ^ 2 / 2) := by
  unfold norm_cdf
  rw [← integral_Iic_comp_sub norm_pdf c a]
  exact setIntegral_congr_fun measurableSet_Iic fun u _ => norm_pdf_sub u a

lemma integrable_norm_pdf_shift (a : ℝ) :
    Integrable (fun u : ℝ => norm_pdf u * Real.exp (a * u - a ^ 2 / 2)) := by
  have h := integrable_norm_pdf.comp_sub_right a
  exact h.congr (Filter.Eventually.of_forall fun u => norm_pdf_sub u a)

lemma norm_cdf_mul_le (a c A B : ℝ) (ha : 0 ≤ a) (hB : 0 ≤ B)
    (hle : B * Real.exp (a * c - a ^ 2 / 2) ≤ A) :
    B * norm_cdf (c - a) ≤ A * norm_cdf c := by
  rw [norm_cdf_sub]
  calc B * ∫ u in Iic c, norm_pdf u * Real.exp (a * u - a ^ 2 / 2)
      = ∫ u in Iic c, B * (norm_pdf u * Real.exp (a * u - a ^ 2 / 2)) :=
        (integral_mul_left B _).symm
    _ ≤ ∫ u in Iic c, A * norm_pdf u := by
        apply setIntegral_mono_on
          (((integrable_norm_pdf_shift a).const_mul B).integrableOn)
          ((integrable_norm_pdf.const_mul A).integrableOn)
          measurableSet_Iic
        intro u hu
        have h1 : Real.exp (a * u - a ^ 2 / 2) ≤ Real.exp (a * c - a ^ 2 / 2) := by
          apply Real.exp_le_exp.mpr
          have := mul_le_mul_of_nonneg_left (mem_Iic.mp hu) ha
          linarith
        calc B * (norm_pdf u * Real.exp (a * u - a ^ 2 / 2))
            = norm_pdf u * (B * Real.exp (a * u - a ^ 2 / 2)) := by ring
          _ ≤ norm_pdf u * (B * Real.exp (a * c - a ^ 2 / 2)) :=
              mul_le_mul_of_nonneg_left (mul_le_mul_of_nonneg_left h1 hB)
                (norm_pdf_nonneg u)
          _ ≤ norm_pdf u * A :=
              mul_le_mul_of_nonneg_left hle (norm_pdf_nonneg u)
          _ = A * norm_pdf u := mul_comm _ _
    _ = A * norm_cdf c := integral_mul_left A _

lemma bs_a_mul_d1 (S K T sigma r : ℝ) (hS : 0 < S) (hK : 0 < K) (hT : 0 < T)
    (hsigma : 0 < sigma) :
    sigma * Real.sqrt T * bs_d1 S K T sigma r - (sigma * Real.sqrt T) ^ 2 / 2 =
      Real.log (S / K) + r * T := by
  have hsq : Real.sqrt T ^ 2 = T := Real.sq_sqrt hT.le
  have ha : sigma * Real.sqrt T ≠ 0 :=
    ne_of_gt (mul_pos hsigma (Real.sqrt_pos.mpr hT))
  unfold bs_d1
  rw [mul_div_cancel₀ _ ha, mul_pow, hsq]
  ring

lemma bs_exp_a_d1 (S K T sigma r : ℝ) (hS : 0 < S) (hK : 0 < K) (hT : 0 < T)
    (hsigma : 0 < sigma) :
    K * Real.exp (-r * T) *
      Real.exp (sigma * Real.sqrt T * bs_d1 S K T sigma r -
        (sigma * Real.sqrt T) ^ 2 / 2) = S := by
  rw [bs_a_mul_d1 S K T sigma r hS hK hT hsigma, Real.exp_add,
    Real.exp_log (div_pos hS hK)]
  have hexp : Real.exp (-r * T) * Real.exp (r * T) = 1 := by
    rw [← Real.exp_add, show -r * T + r * T = 0 by ring, Real.exp_zero]
  calc K * Real.exp (-r * T) * (S / K * Real.exp (r * T))
      = S / K * K * (Real.exp (-r * T) * Real.exp (r * T)) := by ring
    _ = S / K * K * 1 := by rw [hexp]
    _ = S := by field_simp

lemma bs_exp_a_neg_d2 (S K T sigma r : ℝ) (hS : 0 < S) (hK : 0 < K) (hT : 0 < T)
    (hsigma : 0 < sigma) :
    S * Real.exp (sigma * Real.sqrt T * (-bs_d2 S K T sigma r) -
      (sigma * Real.sqrt T) ^ 2 / 2) = K * Real.exp (-r * T) := by
  have h1 : sigma * Real.sqrt T * (-bs_d2 S K T sigma r) -
      (sigma * Real.sqrt T) ^ 2 / 2 = -(Real.log (S / K) + r * T) := by
    unfold bs_d2
    linear_combination -(bs_a_mul_d1 S K T sigma r hS hK hT hsigma)
  rw [h1, Real.exp_neg, Real.exp_add, Real.exp_log (div_pos hS hK),
    show -r * T = -(r * T) by ring, Real.exp_neg]
  have hE := Real.exp_ne_zero (r * T)
  field_simp
  ring

/-- C6: for every valid parameter set both components of the result of
calculate_prices are nonnegative.  The call satisfies
K e^(-rT) Phi(d2) <= S Phi(d1) because Phi(d1 - a) equals the integral of
norm_pdf u * exp(a*u - a^2/2) over Iic d1, whose integrand is dominated
there by (S / (K e^(-rT))) * norm_pdf u; symmetrically for the put. -/
theorem prices_nonneg (S K T sigma r : ℝ)
    (hS : 0 < S) (hK : 0 < K) (hT : 0 < T) (hsigma : 0 < sigma) :
    0 ≤ (BlackScholes.calculate_prices ⟨S, K, T, sigma, r⟩).1 ∧
    0 ≤ (BlackScholes.calculate_prices ⟨S, K, T, sigma, r⟩).2 := by
  rw [calculate_prices_def]
  have ha : 0 ≤ sigma * Real.sqrt T := (mul_pos hsigma (Real.sqrt_pos.mpr hT)).le
  constructor
  · show 0 ≤ bs_call S K T sigma r
    unfold bs_call
    rw [sub_nonneg]
    have h := norm_cdf_mul_le (sigma * Real.sqrt T) (bs_d1 S K T sigma r) S
      (K * Real.exp (-r * T)) ha (by positivity)
      (le_of_eq (bs_exp_a_d1 S K T sigma r hS hK hT hsigma))
    unfold bs_d2
    exact h
  · show 0 ≤ bs_put S K T sigma r
    unfold bs_put
    rw [sub_nonneg]
    have hneg : -bs_d1 S K T sigma r = -bs_d2 S K T sigma r - sigma * Real.sqrt T := by
      unfold bs_d2
      ring
    rw [hneg]
    exact norm_cdf_mul_le (sigma * Real.sqrt T) (-bs_d2 S K T sigma r)
      (K * Real.exp (-r * T)) S ha hS.le
      (le_of_eq (bs_exp_a_neg_d2 S K T sigma r hS hK hT hsigma))

/-- Witness for prices_nonneg at S = K = T = sigma = r = 1. -/
theorem prices_nonneg_witness :
    (0 : ℝ) < 1 ∧
    0 ≤ (BlackScholes.calculate_prices ⟨1, 1, 1, 1, 1⟩).1 ∧
    0 ≤ (BlackScholes.calculate_prices ⟨1, 1, 1, 1, 1⟩).2 :=
  ⟨one_pos, prices_nonneg 1 1 1 1 1 one_pos one_pos one_pos one_pos⟩

lemma norm_cdf_pos (x : ℝ) : 0 < norm_cdf x := by
  have hsub := intervalIntegral.integral_Iic_sub_Iic (μ := volume) (a := x - 1) (b := x)
    integrable_norm_pdf.integrableOn integrable_norm_pdf.integrableOn
  have hpos : 0 < ∫ t in (x - 1)..x, norm_pdf t :=
    intervalIntegral.intervalIntegral_pos_of_pos_on
      (continuous_norm_pdf.intervalIntegrable _ _) (fun t _ => norm_pdf_pos t)
      (by linarith)
  have h0 := norm_cdf_nonneg (x - 1)
  unfold norm_cdf at h0 ⊢
  linarith [hsub]

lemma hasDerivAt_norm_cdf (x : ℝ) : HasDerivAt norm_cdf (norm_pdf x) x := by
  have hrepr : ∀ u : ℝ, norm_cdf u = norm_cdf 0 + ∫ t in (0 : ℝ)..u, norm_pdf t := by
    intro u
    have h := intervalIntegral.integral_Iic_sub_Iic (μ := volume) (a := (0 : ℝ)) (b := u)
      integrable_norm_pdf.integrableOn integrable_norm_pdf.integrableOn
    unfold norm_cdf
    linarith [h]
  have hd : HasDerivAt (fun u => norm_cdf 0 + ∫ t in (0 : ℝ)..u, norm_pdf t)
      (norm_pdf x) x := by
    apply HasDerivAt.const_add
    exact intervalIntegral.integral_hasDerivAt_right
      (continuous_norm_pdf.intervalIntegrable 0 x)
      (continuous_norm_pdf.stronglyMeasurableAtFilter _ _)
      continuous_norm_pdf.continuousAt
  exact hd.congr_of_eventuallyEq (Filter.Eventually.of_forall hrepr)

lemma pdf_identity (S K T sigma r : ℝ) (hS : 0 < S) (hK : 0 < K) (hT : 0 < T)
    (hsigma : 0 < sigma) :
    S * norm_pdf (bs_d1 S K T sigma r) =
      K * Real.exp (-r * T) * norm_pdf (bs_d2 S K T sigma r) := by
  have h1 : norm_pdf (bs_d2 S K T sigma r) =
      norm_pdf (bs_d1 S K T sigma r) *
        Real.exp (sigma * Real.sqrt T * bs_d1 S K T sigma r -
          (sigma * Real.sqrt T) ^ 2 / 2) := by
    unfold bs_d2
    exact norm_pdf_sub (bs_d1 S K T sigma r) (sigma * Real.sqrt T)
  rw [h1]
  nth_rewrite 1 [← bs_exp_a_d1 S K T sigma r hS hK hT hsigma]
  ring

lemma hasDerivAt_bs_call_S (K T sigma r : ℝ) (hK : 0 < K) (hT : 0 < T)
    (hsigma : 0 < sigma) (S : ℝ) (hS : 0 < S) :
    HasDerivAt (fun s => bs_call s K T sigma r) (norm_cdf (bs_d1 S K T sigma r)) S := by
  have hsqT : 0 < Real.sqrt T := Real.sqrt_pos.mpr hT
  have hlog : HasDerivAt (fun s : ℝ => Real.log (s / K)) (1 / S) S := by
    have h1 : HasDerivAt (fun s : ℝ => s / K) (1 / K) S := by
      simpa using (hasDerivAt_id S).div_const K
    have h2 := h1.log (ne_of_gt (div_pos hS hK))
    convert h2 using 1
    field_simp
  have hd1 : HasDerivAt (fun s => bs_d1 s K T sigma r)
      (1 / S / (sigma * Real.sqrt T)) S := by
    unfold bs_d1
    exact (hlog.add_const ((r + 0.5 * sigma ^ 2) * T)).div_const (sigma * Real.sqrt T)
  have hd2 : HasDerivAt (fun s => bs_d2 s K T sigma r)
      (1 / S / (sigma * Real.sqrt T)) S := by
    unfold bs_d2
    exact hd1.sub_const (sigma * Real.sqrt T)
  have hc1 : HasDerivAt (fun s => norm_cdf (bs_d1 s K T sigma r))
      (norm_pdf (bs_d1 S K T sigma r) * (1 / S / (sigma * Real.sqrt T))) S := by
    simpa [Function.comp] using (hasDerivAt_norm_cdf (bs_d1 S K T sigma r)).comp S hd1
  have hc2 : HasDerivAt (fun s => norm_cdf (bs_d2 s K T sigma r))
      (norm_pdf (bs_d2 S K T sigma r) * (1 / S / (sigma * Real.sqrt T))) S := by
    simpa [Function.comp] using (hasDerivAt_norm_cdf (bs_d2 S K T sigma r)).comp S hd2
  have htotal := ((hasDerivAt_id S).mul hc1).sub (hc2.const_mul (K * Real.exp (-r * T)))
  have hval : 1 * norm_cdf (bs_d1 S K T sigma r) +
      S * (norm_pdf (bs_d1 S K T sigma r) * (1 / S / (sigma * Real.sqrt T))) -
      K * Real.exp (-r * T) *
        (norm_pdf (bs_d2 S K T sigma r) * (1 / S / (sigma * Real.sqrt T))) =
      norm_cdf (bs_d1 S K T sigma r) := by
    linear_combination (1 / S / (sigma * Real.sqrt T)) *
      pdf_identity S K T sigma r hS hK hT hsigma
  simp only [id_eq] at htotal
  rw [hval] at htotal
  exact htotal

lemma hasDerivAt_bs_call_sigma (S K T r : ℝ) (hS : 0 < S) (hK : 0 < K) (hT : 0 < T)
    (sigma : ℝ) (hsigma : 0 < sigma) :
    HasDerivAt (fun v => bs_call S K T v r)
      (S * norm_pdf (bs_d1 S K T sigma r) * Real.sqrt T) sigma := by
  have hsqT : 0 < Real.sqrt T := Real.sqrt_pos.mpr hT
  have hdenne : sigma * Real.sqrt T ≠ 0 := ne_of_gt (mul_pos hsigma hsqT)
  have hnum : HasDerivAt (fun v : ℝ => Real.log (S / K) + (r + 0.5 * v ^ 2) * T)
      (sigma * T) sigma := by
    have h1 : HasDerivAt (fun v : ℝ => v ^ 2) (2 * sigma) sigma := by
      simpa using hasDerivAt_pow 2 sigma
    have h2 : HasDerivAt (fun v : ℝ => (r + 0.5 * v ^ 2) * T) (sigma * T) sigma := by
      have h3 := ((h1.const_mul (0.5 : ℝ)).const_add r).mul_const T
      convert h3 using 1
      ring
    exact h2.const_add (Real.log (S / K))
  have hden : HasDerivAt (fun v : ℝ => v * Real.sqrt T) (Real.sqrt T) sigma := by
    simpa using (hasDerivAt_id sigma).mul_const (Real.sqrt T)
  have hd1 : HasDerivAt (fun v => bs_d1 S K T v r)
      ((sigma * T * (sigma * Real.sqrt T) -
        (Real.log (S / K) + (r + 0.5 * sigma ^ 2) * T) * Real.sqrt T) /
        (sigma * Real.sqrt T) ^ 2) sigma := by
    unfold bs_d1
    exact hnum.div hden hdenne
  have hd2 : HasDerivAt (fun v => bs_d2 S K T v r)
      ((sigma * T * (sigma * Real.sqrt T) -
        (Real.log (S / K) + (r + 0.5 * sigma ^ 2) * T) * Real.sqrt T) /
        (sigma * Real.sqrt T) ^ 2 - Real.sqrt T) sigma := by
    unfold bs_d2
    exact hd1.sub hden
  have hc1 : HasDerivAt (fun v => norm_cdf (bs_d1 S K T v r))
      (norm_pdf (bs_d1 S K T sigma r) *
        ((sigma * T * (sigma * Real.sqrt T) -
          (Real.log (S / K) + (r + 0.5 * sigma ^ 2) * T) * Real.sqrt T) /
          (sigma * Real.sqrt T) ^ 2)) sigma := by
    simpa [Function.comp] using
      (hasDerivAt_norm_cdf (bs_d1 S K T sigma r)).comp sigma hd1
  have hc2 : HasDerivAt (fun v => norm_cdf (bs_d2 S K T v r))
      (norm_pdf (bs_d2 S K T sigma r) *
        ((sigma * T * (sigma * Real.sqrt T) -
          (Real.log (S / K) + (r + 0.5 * sigma ^ 2) * T) * Real.sqrt T) /
          (sigma * Real.sqrt T) ^ 2 - Real.sqrt T)) sigma := by
    simpa [Function.comp] using
      (hasDerivAt_norm_cdf (bs_d2 S K T sigma r)).comp sigma hd2
  have htotal := (hc1.const_mul S).sub (hc2.const_mul (K * Real.exp (-r * T)))
  have hval : S * (norm_pdf (bs_d1 S K T sigma r) *
      ((sigma * T * (sigma * Real.sqrt T) -
        (Real.log (S / K) + (r + 0.5 * sigma ^ 2) * T) * Real.sqrt T) /
        (sigma * Real.sqrt T) ^ 2)) -
      K * Real.exp (-r * T) * (norm_pdf (bs_d2 S K T sigma r) *
        ((sigma * T * (sigma * Real.sqrt T) -
          (Real.log (S / K) + (r + 0.5 * sigma ^ 2) * T) * Real.sqrt T) /
          (sigma * Real.sqrt T) ^ 2 - Real.sqrt T)) =
      S * norm_pdf (bs_d1 S K T sigma r) * Real.sqrt T := by
    linear_combination ((sigma * T * (sigma * Real.sqrt T) -
        (Real.log (S / K) + (r + 0.5 * sigma ^ 2) * T) * Real.sqrt T) /
        (sigma * Real.sqrt T) ^ 2 - Real.sqrt T) *
      pdf_identity S K T sigma r hS hK hT hsigma
  rw [hval] at htotal
  exact htotal

lemma bs_call_strictMonoOn_S (K T sigma r : ℝ) (hK : 0 < K) (hT : 0 < T)
    (hsigma : 0 < sigma) :
    StrictMonoOn (fun s => bs_call s K T sigma r) (Ioi (0 : ℝ)) := by
  apply strictMonoOn_of_deriv_pos (convex_Ioi 0)
  · intro s hs
    exact (hasDerivAt_bs_call_S K T sigma r hK hT hsigma s
      hs).differentiableAt.continuousAt.continuousWithinAt
  · intro s hs
    rw [interior_Ioi] at hs
    rw [(hasDerivAt_bs_call_S K T sigma r hK hT hsigma s hs).deriv]
    exact norm_cdf_pos _

lemma bs_call_strictMonoOn_sigma (S K T r : ℝ) (hS : 0 < S) (hK : 0 < K)
    (hT : 0 < T) :
    StrictMonoOn (fun v => bs_call S K T v r) (Ioi (0 : ℝ)) := by
  apply strictMonoOn_of_deriv_pos (convex_Ioi 0)
  · intro v hv
    exact (hasDerivAt_bs_call_sigma S K T r hS hK hT v
      hv).differentiableAt.continuousAt.continuousWithinAt
  · intro v hv
    rw [interior_Ioi] at hv
    rw [(hasDerivAt_bs_call_sigma S K T r hS hK hT v hv).deriv]
    exact mul_pos (mul_pos hS (norm_pdf_pos _)) (Real.sqrt_pos.mpr hT)

/-- C7: the calculated call price is non-decreasing in the spot S (other
parameters fixed) and non-decreasing in the volatility sigma (other
parameters fixed), over valid parameter sets.  The derivative in S is
Phi(d1) > 0 and the derivative in sigma is S * phi(d1) * sqrt(T) > 0. -/
theorem call_price_monotone (S1 S2 Sv K T sigma sigma1 sigma2 r : ℝ)
    (hS1 : 0 < S1) (h12 : S1 ≤ S2) (hSv : 0 < Sv) (hK : 0 < K) (hT : 0 < T)
    (hsigma : 0 < sigma) (hsig1 : 0 < sigma1) (hvs : sigma1 ≤ sigma2) :
    (BlackScholes.calculate_prices ⟨S1, K, T, sigma, r⟩).1 ≤
      (BlackScholes.calculate_prices ⟨S2, K, T, sigma, r⟩).1 ∧
    (BlackScholes.calculate_prices ⟨Sv, K, T, sigma1, r⟩).1 ≤
      (BlackScholes.calculate_prices ⟨Sv, K, T, sigma2, r⟩).1 := by
  simp only [calculate_prices_def]
  constructor
  · exact (bs_call_strictMonoOn_S K T sigma r hK hT hsigma).monotoneOn
      (mem_Ioi.mpr hS1) (mem_Ioi.mpr (lt_of_lt_of_le hS1 h12)) h12
  · exact (bs_call_strictMonoOn_sigma Sv K T r hSv hK hT).monotoneOn
      (mem_Ioi.mpr hsig1) (mem_Ioi.mpr (lt_of_lt_of_le hsig1 hvs)) hvs

/-- Witness for call_price_monotone: spot 1 to 2 and volatility 1 to 2 at
K = T = sigma = 1, r = 1. -/
theorem call_price_monotone_witness :
    ((0 : ℝ) < 1 ∧ (1 : ℝ) ≤ 2) ∧
    (BlackScholes.calculate_prices ⟨1, 1, 1, 1, 1⟩).1 ≤
      (BlackScholes.calculate_prices ⟨2, 1, 1, 1, 1⟩).1 ∧
    (BlackScholes.calculate_prices ⟨1, 1, 1, 1, 1⟩).1 ≤
      (BlackScholes.calculate_prices ⟨1, 1, 1, 2, 1⟩).1 :=
  ⟨⟨one_pos, one_le_two⟩,
    call_price_monotone 1 2 1 1 1 1 1 2 1 one_pos one_le_two one_pos one_pos
      one_pos one_pos one_pos one_le_two⟩
